import Mathlib

/-!
Shallow embedding of the `confusables` Go package (eskriett/confusables).

Go strings are modelled as lists of Unicode code points (`List Nat`),
assuming valid UTF-8.  Byte-level behaviour of the source (e.g. `len(s)` on a
string, `make([]Diff, len(nfd))`) is modelled through an explicit UTF-8 byte
encoding of code points (`utf8Bytes`, `runeLen`, `strByteLen`).

The package's global state (`confusables`, `descriptions` tables generated
into `tables.go`, which is not part of the sources) and the external
`golang.org/x/text` collaborators (`norm.NFD`, `norm.NFKC`, the
`transform.Chain(NFD, Remove(Mn), NFC)` mark stripper, `strings.ToLower` on a
single rune) are gathered in an explicit context `Ctx`.  Each algorithm of the
package becomes a function of such a context; theorems quantify over contexts,
with hypotheses recording the documented properties of the real collaborators,
and are instantiated at small concrete contexts that agree with the real
library on the inputs used.
-/

namespace Confusables

/-- `unicode.MaxASCII` = 0x7F. -/
def maxASCII : Nat := 127

/-- The UTF-8 encoding of a code point, as its list of bytes. -/
def utf8Bytes (r : Nat) : List Nat :=
  if r < 0x80 then [r]
  else if r < 0x800 then [0xC0 + r / 64, 0x80 + r % 64]
  else if r < 0x10000 then [0xE0 + r / 4096, 0x80 + (r / 64) % 64, 0x80 + r % 64]
  else [0xF0 + r / 0x40000, 0x80 + (r / 4096) % 64, 0x80 + (r / 64) % 64, 0x80 + r % 64]

/-- Number of bytes in the UTF-8 encoding of a code point. -/
def runeLen (r : Nat) : Nat := (utf8Bytes r).length

/-- Byte length of a string (Go `len(s)`). -/
def strByteLen (s : List Nat) : Nat := (s.map runeLen).sum

/-- `isASCII` from the source: every byte of the string is at most
`unicode.MaxASCII`. -/
def isASCII (s : List Nat) : Bool := (s.flatMap utf8Bytes).all (fun b => decide (b ≤ maxASCII))

/-- `Description` describes a mapping for a confusable
(fields `From`, `To` in the source). -/
structure Description where
  From : List Nat
  To : List Nat
deriving DecidableEq, Repr

/-- `Diff` details the mapping from a rune to its confusable if it exists
(fields `Confusable`, `Description`, `Rune` in the source). -/
structure Diff where
  confusable : Option (List Nat)
  description : Option Description
  rune : Nat
deriving DecidableEq, Repr

/-- The zero value of Go's `Diff` struct (`Diff{}`): nil pointers and rune 0. -/
def zeroDiff : Diff := ⟨none, none, 0⟩

/-- The package state and its external collaborators:
* `confusables`/`descriptions`: the two global tables (`tables.go` plus any
  runtime additions); association lists where the most recent write is at the
  head, so the first match wins (last-write-wins, as for a Go map);
* `nfd`: `norm.NFD.String`;
* `nfkc`: `norm.NFKC.String`;
* `removeMarks`: `transform.Chain(norm.NFD, runes.Remove(runes.In(unicode.Mn)), norm.NFC)`;
* `toLowerRune`: `strings.ToLower(string(r))` for a single rune `r`. -/
structure Ctx where
  confusables : List (Nat × List Nat)
  descriptions : List (List Nat × List Nat)
  nfd : List Nat → List Nat
  nfkc : List Nat → List Nat
  removeMarks : List Nat → List Nat
  toLowerRune : Nat → List Nat

/-- Go map read `confusables[r]` with its `ok` flag. -/
def lookupConf (ctx : Ctx) (r : Nat) : Option (List Nat) :=
  (ctx.confusables.find? (fun p => p.1 == r)).map Prod.snd

/-- Go map read `descriptions[k]`: the zero value `""` when the key is absent. -/
def lookupDesc (ctx : Ctx) (k : List Nat) : List Nat :=
  ((ctx.descriptions.find? (fun p => p.1 == k)).map Prod.snd).getD []

/-- `", "` (the separator of `strings.Join(parts, ", ")`). -/
def commaSpace : List Nat := [0x2C, 0x20]

/-- `getDescriptionMapping` from the source: resolve the description pair for a
rune `r` and its confusable.  When `descriptions[string(r)]` is empty the rune
is canonically decomposed and every component must have a known description,
the parts being joined with `", "`; if any side is unknown the result is nil. -/
def getDescriptionMapping (ctx : Ctx) (r : Nat) (confusable : Option (List Nat)) :
    Option Description :=
  match confusable with
  | none => none
  | some conf =>
    let rDesc := lookupDesc ctx [r]
    let rDesc? : Option (List Nat) :=
      if rDesc = [] then
        let nfd := ctx.nfd [r]
        (nfd.mapM (fun c =>
            let cDesc := lookupDesc ctx [c]
            if cDesc = [] then none else some cDesc)).map
          (fun parts => List.intercalate commaSpace parts)
      else some rDesc
    match rDesc? with
    | none => none
    | some rd =>
      let confusableDesc := lookupDesc ctx conf
      if confusableDesc = [] then none else some ⟨rd, confusableDesc⟩

/-- The fall-through tail of `processRune`: strip marks from the rune itself
and substitute if the result is pure ASCII. -/
def processRuneFallback (ctx : Ctx) (r : Nat) : Diff :=
  if isASCII (ctx.removeMarks [r]) then
    ⟨some (ctx.removeMarks [r]),
      getDescriptionMapping ctx r (some (ctx.removeMarks [r])), r⟩
  else ⟨none, none, r⟩

/-- `processRune` from the source: ASCII runes pass through; otherwise try the
mapping table (accepting the target only if its mark-stripped form is pure
ASCII), then mark-stripping the rune itself. -/
def processRune (ctx : Ctx) (r : Nat) : Diff :=
  if r ≤ maxASCII then ⟨none, none, r⟩
  else
    match lookupConf ctx r with
    | some v0 =>
      if isASCII (ctx.removeMarks v0) then
        ⟨some (ctx.removeMarks v0),
          getDescriptionMapping ctx r (some (ctx.removeMarks v0)), r⟩
      else processRuneFallback ctx r
    | none => processRuneFallback ctx r

/-- Write `f r` into `acc` at the byte offset of each rune of the string,
starting at offset `i` (the loop `for i, r := range s { acc[i] = f r }` over a
Go string, where `i` advances by the UTF-8 byte width of `r`). -/
def setAtByteOffsets (f : Nat → Diff) (acc : List Diff) (i : Nat) : List Nat → List Diff
  | [] => acc
  | r :: rs => setAtByteOffsets f (acc.set i (f r)) (i + runeLen r) rs

/-- `noDiff` from the source: `make([]Diff, len(s))` (byte length!) followed by
`diff[i] = Diff{Rune: r}` at each byte offset `i`. -/
def noDiff (s : List Nat) : List Diff :=
  setAtByteOffsets (fun r => ⟨none, none, r⟩)
    (List.replicate (strByteLen s) zeroDiff) 0 s

/-- `toASCII` from the source: pure-ASCII strings short-circuit; otherwise each
rune is processed in order, the confusable (or the rune itself) is appended,
and `norm.NFKC` is applied to the concatenation. -/
def toASCII (ctx : Ctx) (s : List Nat) : List Nat × List Diff :=
  if isASCII s then (s, noDiff s)
  else
    let diffs := s.map (processRune ctx)
    let ascii := diffs.flatMap (fun d => d.confusable.getD [d.rune])
    (ctx.nfkc ascii, diffs)

/-- `ToASCII` from the source. -/
def ToASCII (ctx : Ctx) (s : List Nat) : List Nat := (toASCII ctx s).1

/-- `ToASCIIDiff` from the source. -/
def ToASCIIDiff (ctx : Ctx) (s : List Nat) : List Nat × List Diff := toASCII ctx s

/-- The body of `ToNumber`'s loop: `switch strings.ToLower(string(r))` with
cases `"o"` ↦ `'0'` and `"i"`, `"l"`, `"!"` ↦ `'1'`. -/
def numberFoldRune (ctx : Ctx) (r : Nat) : Nat :=
  let low := ctx.toLowerRune r
  if low = [0x6F] then 0x30
  else if low = [0x69] ∨ low = [0x6C] ∨ low = [0x21] then 0x31
  else r

/-- `ToNumber` from the source: ASCII-fold first, then the digit-lookalike
switch on every rune of the result. -/
def ToNumber (ctx : Ctx) (s : List Nat) : List Nat :=
  (ToASCII ctx s).map (numberFoldRune ctx)

/-- The per-rune substitution of `ToSkeleton`'s loop: the table's confusable
string if present, else the rune itself. -/
def skelSub (ctx : Ctx) (r : Nat) : List Nat := (lookupConf ctx r).getD [r]

/-- `ToSkeleton` from the source: canonically decompose, then substitute every
mapped rune. -/
def ToSkeleton (ctx : Ctx) (s : List Nat) : List Nat := (ctx.nfd s).flatMap (skelSub ctx)

/-- `IsConfusable` from the source: exact equality of skeletons. -/
def IsConfusable (ctx : Ctx) (s1 s2 : List Nat) : Bool :=
  ToSkeleton ctx s1 == ToSkeleton ctx s2

/-- The `Diff` built for one rune of `ToSkeletonDiff`'s loop: the confusable is
the raw table entry (if any), the description is resolved from it. -/
def skelDiffOf (ctx : Ctx) (r : Nat) : Diff :=
  let confusable := lookupConf ctx r
  ⟨confusable, getDescriptionMapping ctx r confusable, r⟩

/-- `ToSkeletonDiff` from the source, `none` standing for Go's nil slice:
after decomposition, `len(nfd) == 0` returns nil; otherwise
`make([]Diff, len(nfd))` (byte length!) is filled by `diffs[i] = …` at the
byte offset of each rune. -/
def ToSkeletonDiff (ctx : Ctx) (s : List Nat) : Option (List Diff) :=
  if strByteLen (ctx.nfd s) = 0 then none
  else some (setAtByteOffsets (skelDiffOf ctx)
    (List.replicate (strByteLen (ctx.nfd s)) zeroDiff) 0 (ctx.nfd s))

/-- `ConfusableEntry` defines a parsed entry from a confusable mapping file. -/
structure ConfusableEntry where
  description : Description
  source : Nat
  target : List Nat
deriving DecidableEq, Repr

/-- The outcome of `ParseLine`: a parsed entry, the `ErrIgnoreLine` sentinel, a
returned parse error (from `strconv.ParseUint`), or a Go runtime panic
(index out of range on a missing field). -/
inductive ParseResult where
  | entry (e : ConfusableEntry)
  | ignoreLine
  | parseError
  | crash
deriving DecidableEq, Repr

/-- `strings.Split(s, sep)` for a non-empty separator: split around each
leftmost non-overlapping occurrence of `sep`.  The first argument is fuel
(every step consumes at least one character, so `s.length` suffices); fuel
keeps the recursion structural, hence kernel-reducible. -/
def splitGo (sep : List Nat) : Nat → List Nat → List Nat → List (List Nat)
  | _, [], acc => [acc.reverse]
  | 0, _ :: _, acc => [acc.reverse]
  | fuel + 1, r :: rs, acc =>
    if sep.isPrefixOf (r :: rs) then
      acc.reverse :: splitGo sep fuel (List.drop (sep.length - 1) rs) []
    else
      splitGo sep fuel rs (r :: acc)

/-- `strings.Split` (non-empty separator). -/
def splitOnSub (sep s : List Nat) : List (List Nat) := splitGo sep s.length s []

/-- `unicode.IsSpace`: Unicode's White_Space code points. -/
def isSpaceRune (r : Nat) : Bool :=
  decide (r = 0x9) || decide (r = 0xA) || decide (r = 0xB) || decide (r = 0xC) ||
  decide (r = 0xD) || decide (r = 0x20) || decide (r = 0x85) || decide (r = 0xA0) ||
  decide (r = 0x1680) || (decide (0x2000 ≤ r) && decide (r ≤ 0x200A)) ||
  decide (r = 0x2028) || decide (r = 0x2029) || decide (r = 0x202F) ||
  decide (r = 0x205F) || decide (r = 0x3000)

/-- `strings.TrimSpace`. -/
def trimSpace (s : List Nat) : List Nat :=
  ((s.dropWhile isSpaceRune).reverse.dropWhile isSpaceRune).reverse

/-- The value of a hexadecimal digit character, if it is one. -/
def hexDigitVal (c : Nat) : Option Nat :=
  if 0x30 ≤ c ∧ c ≤ 0x39 then some (c - 0x30)
  else if 0x61 ≤ c ∧ c ≤ 0x66 then some (c - 0x61 + 10)
  else if 0x41 ≤ c ∧ c ≤ 0x46 then some (c - 0x41 + 10)
  else none

/-- `strconv.ParseUint(s, 16, 64)`: fails on an empty string, on any non-hex
character, and on overflow past 64 bits (`ErrRange`). -/
def parseUintHex (s : List Nat) : Option Nat :=
  match s with
  | [] => none
  | _ =>
    match s.mapM hexDigitVal with
    | none => none
    | some ds =>
      let v := ds.foldl (fun a d => a * 16 + d) 0
      if v < 2 ^ 64 then some v else none

/-- `codepointsToRunes` from the source: split on `" "`, hex-parse each piece,
convert with `rune(codePoint)` (truncation of the `uint64` to 32 bits). -/
def codepointsToRunes (s : List Nat) : Option (List Nat) :=
  (splitOnSub [0x20] s).mapM
    (fun cp => (parseUintHex cp).map (fun v => v % 2 ^ 32))

/-- The UTF-8 byte-order mark U+FEFF (bytes `EF BB BF`). -/
def bomRune : Nat := 0xFEFF

/-- `strings.TrimPrefix(line, "\xEF\xBB\xBF")`: strip one leading BOM. -/
def trimBOM (line : List Nat) : List Nat :=
  match line with
  | r :: rest => if r = bomRune then rest else line
  | [] => []

/-- The field separator `" ;\t"` of a confusables data line. -/
def fieldSep : List Nat := [0x20, 0x3B, 0x09]

/-- The separator `" → "` (space, U+2192, space) inside the comment field. -/
def arrowSep : List Nat := [0x20, 0x2192, 0x20]

/-- The separator `" ) "` inside the comment field. -/
def closeParenSep : List Nat := [0x20, 0x29, 0x20]

/-- Eliminator for a fallible step of `ParseLine`: `onFail` when the value is
absent (a hex-parse error, or an out-of-range Go slice index — a panic),
otherwise continue. -/
def stepRes {α : Type} (o : Option α) (onFail : ParseResult)
    (k : α → ParseResult) : ParseResult :=
  match o with
  | none => onFail
  | some x => k x

/-- The body of `ParseLine` after the ignore check, on the split fields.
Each Go slice index that can be out of range is modelled by `List.get?`, the
`none` case being the runtime panic (`.crash`); each `err != nil` return of
`codepointsToRunes` is the `.parseError` outcome. -/
def parseFields (fields : List (List Nat)) : ParseResult :=
  stepRes (fields.get? 0) .crash fun f0 =>
  stepRes (codepointsToRunes f0) .parseError fun sourceRunes =>
  stepRes (fields.get? 1) .crash fun f1 =>
  stepRes (codepointsToRunes f1) .parseError fun target =>
  stepRes (fields.get? 2) .crash fun f2 =>
  stepRes ((splitOnSub arrowSep f2).get? 1) .crash fun a1 =>
  stepRes ((splitOnSub closeParenSep a1).get? 1) .crash fun fromRaw =>
  stepRes ((splitOnSub arrowSep f2).get? 2) .crash fun a2 =>
  stepRes ((splitOnSub [0x23] a2).get? 0) .crash fun toRaw =>
  stepRes (sourceRunes.get? 0) .crash fun src =>
  .entry ⟨⟨trimSpace fromRaw, trimSpace toRaw⟩, src, target⟩

/-- `ParseLine` from the source: strip a leading BOM, ignore comments (`#`
prefix) and blank lines, then parse the three `" ;\t"`-separated fields. -/
def ParseLine (line : List Nat) : ParseResult :=
  if (trimBOM line).head? = some 0x23 ∨ trimBOM line = [] then .ignoreLine
  else parseFields (splitOnSub fieldSep (trimBOM line))

/-- `AddMapping` from the source: overwrite the confusable for `r`
(modelled by prepending, first match winning). -/
def AddMapping (ctx : Ctx) (r : Nat) (confusable : List Nat) : Ctx :=
  { ctx with confusables := (r, confusable) :: ctx.confusables }

/-- `AddMappingWithDesc` from the source.  NOTE: the source executes
`descriptions[runeDesc] = confusableDesc`, i.e. it keys the description table
by the *from-description text*, with the to-description as value. -/
def AddMappingWithDesc (ctx : Ctx) (r : Nat) (confusable runeDesc confusableDesc : List Nat) :
    Ctx :=
  let ctx := AddMapping ctx r confusable
  { ctx with descriptions := (runeDesc, confusableDesc) :: ctx.descriptions }

/-! ### Spec-side definitions (for refinement claims)

These transcribe the specification's wording, to be compared against the
definitions above, which were translated from the source. -/

/-- ASCII lowercasing of a code point (`'A'..'Z'` to `'a'..'z'`). -/
def asciiLowerRune (r : Nat) : Nat :=
  if 0x41 ≤ r ∧ r ≤ 0x5A then r + 0x20 else r

/-- Spec wording of the per-code-point ASCII-folding substitution: ASCII kept;
else a mapping-table target whose mark-stripped form is pure ASCII; else the
mark-stripped rune if pure ASCII; else the rune unchanged. -/
def substSpec (ctx : Ctx) (r : Nat) : List Nat :=
  if r ≤ maxASCII then [r]
  else
    match lookupConf ctx r with
    | some t =>
      if isASCII (ctx.removeMarks t) then ctx.removeMarks t
      else if isASCII (ctx.removeMarks [r]) then ctx.removeMarks [r]
      else [r]
    | none =>
      if isASCII (ctx.removeMarks [r]) then ctx.removeMarks [r]
      else [r]

/-- Spec wording of `to_ascii`: substitute every code point of the original
(non-decomposed) string and apply NFKC to the concatenation. -/
def toASCIISpec (ctx : Ctx) (s : List Nat) : List Nat :=
  ctx.nfkc (s.flatMap (substSpec ctx))

/-- Spec wording of `to_number`'s post-pass: case-insensitively (ASCII case)
map `'o'` to `'0'` and `'i'`, `'l'`, `'!'` to `'1'`, else keep. -/
def numberFoldSpecRune (r : Nat) : Nat :=
  let low := asciiLowerRune r
  if low = 0x6F then 0x30
  else if low = 0x69 ∨ low = 0x6C ∨ low = 0x21 then 0x31
  else r

/-! ### Concrete contexts for witnesses and counterexamples

Each context is faithful to the real library and tables on the code points it
is used with (per-input justifications in the doc comments). -/

/-- Empty store, identity normalizers, ASCII lowercasing.  Faithful to the real
collaborators on strings whose code points have no canonical decomposition, no
compatibility decomposition and no combining marks (e.g. pure ASCII, `α`,
`ʍ`), and to an empty/irrelevant mapping store. -/
def idCtx : Ctx :=
  ⟨[], [], fun s => s, fun s => s, fun s => s, fun r => [asciiLowerRune r]⟩

/-- `idCtx` plus the shipped table's mapping `'m' ↦ "rn"` (pinned by the
repository's own test `ToSkeleton("example") == "exarnple"`). -/
def mCtx : Ctx := { idCtx with confusables := [(0x6D, [0x72, 0x6E])] }

/-- A context for strings over `t`, `ò` (U+00F2), `o`, `` U+0300 ``:
`nfd` decomposes `ò` canonically to `o` + combining grave (real NFD), and
`removeMarks` sends `ò` to `o` and drops the bare combining grave (real
mark-stripping, pinned by the test `ToASCII("newtòñ") == "newton"`).  The
store has no entry for `ò` (pinned by the test's diff description
`"LATIN SMALL LETTER O, COMBINING GRAVE ACCENT"`, which is produced only by
the decomposition path of `getDescriptionMapping`, i.e. when `ò` itself has
no entry in the generated tables). -/
def graveCtx : Ctx :=
  ⟨[], [],
    fun s => s.flatMap (fun r => if r = 0xF2 then [0x6F, 0x300] else [r]),
    fun s => s,
    fun s => s.flatMap (fun r =>
      if r = 0xF2 then [0x6F] else if r = 0x300 then [] else [r]),
    fun r => [asciiLowerRune r]⟩

/-- A context for strings over `¼` (U+00BC): no canonical decomposition and no
combining marks (so `nfd` and `removeMarks` keep it), but NFKC rewrites it to
`1⁄4` (`1`, U+2044 FRACTION SLASH, `4`) — real NFKC.  The store has no entry
for it (Unicode's confusables data maps visually similar glyphs, not
compatibility variants such as vulgar fractions). -/
def quarterCtx : Ctx :=
  ⟨[], [],
    fun s => s,
    fun s => s.flatMap (fun r => if r = 0xBC then [0x31, 0x2044, 0x34] else [r]),
    fun s => s,
    fun r => [asciiLowerRune r]⟩

/-! ### Basic lemmas about the byte-level model -/

theorem utf8Bytes_ascii {r : Nat} (h : r ≤ maxASCII) : utf8Bytes r = [r] := by
  have hlt : r < 0x80 := by unfold maxASCII at h; omega
  simp [utf8Bytes, hlt]

theorem runeLen_pos (r : Nat) : 0 < runeLen r := by
  unfold runeLen utf8Bytes
  split
  · simp
  · split
    · simp
    · split <;> simp

theorem runeLen_ascii {r : Nat} (h : r ≤ maxASCII) : runeLen r = 1 := by
  unfold runeLen
  rw [utf8Bytes_ascii h]
  rfl

theorem utf8Bytes_all_ascii (r : Nat) :
    ((utf8Bytes r).all (fun b => decide (b ≤ maxASCII)) = true) ↔ r ≤ maxASCII := by
  by_cases h : r ≤ maxASCII
  · rw [utf8Bytes_ascii h]
    simp [h]
  · have h128 : ¬r < 0x80 := by unfold maxASCII at h; omega
    constructor
    · intro hall
      exfalso
      unfold utf8Bytes at hall
      rw [if_neg h128] at hall
      unfold maxASCII at hall
      split at hall
      · simp at hall
        omega
      · split at hall
        · simp at hall
          omega
        · simp at hall
          omega
    · intro hr
      exact absurd hr h

theorem isASCII_iff {s : List Nat} : isASCII s = true ↔ ∀ r ∈ s, r ≤ maxASCII := by
  unfold isASCII
  induction s with
  | nil => simp
  | cons r rs ih =>
    rw [List.flatMap_cons, List.all_append, Bool.and_eq_true, ih,
      List.forall_mem_cons, utf8Bytes_all_ascii r]

theorem strByteLen_nil : strByteLen [] = 0 := rfl

theorem strByteLen_cons (r : Nat) (rs : List Nat) :
    strByteLen (r :: rs) = runeLen r + strByteLen rs := by
  simp [strByteLen]

theorem strByteLen_eq_zero_iff {s : List Nat} : strByteLen s = 0 ↔ s = [] := by
  cases s with
  | nil => simp [strByteLen_nil]
  | cons r rs =>
    simp only [strByteLen_cons]
    have := runeLen_pos r
    constructor
    · intro h
      omega
    · intro h
      exact absurd h (by simp)

theorem strByteLen_ascii {s : List Nat} (h : isASCII s = true) :
    strByteLen s = s.length := by
  rw [isASCII_iff] at h
  revert h
  induction s with
  | nil =>
    intro _
    rfl
  | cons r rs ih =>
    intro h
    rw [strByteLen_cons, runeLen_ascii (h r (by simp)), List.length_cons,
      ih (fun x hx => h x (by simp [hx]))]
    omega

/-! ### Lemmas about lists -/

theorem set_append_len {α : Type} (pre : List α) (x y : α) (t : List α) :
    (pre ++ x :: t).set pre.length y = pre ++ y :: t := by
  induction pre with
  | nil => rfl
  | cons a pre ih => simp [List.set, ih]

theorem flatMap_id_of {α : Type} {l : List α} {g : α → List α}
    (h : ∀ x ∈ l, g x = [x]) : l.flatMap g = l := by
  revert h
  induction l with
  | nil =>
    intro _
    rfl
  | cons a l ih =>
    intro h
    rw [List.flatMap_cons, h a (by simp), ih (fun x hx => h x (by simp [hx]))]
    rfl

theorem flatMap_ne_nil {α β : Type} {l : List α} {g : α → List β}
    (hl : l ≠ []) (h : ∀ x ∈ l, g x ≠ []) : l.flatMap g ≠ [] := by
  cases l with
  | nil => exact absurd rfl hl
  | cons a l =>
    rw [List.flatMap_cons]
    intro hc
    rcases List.append_eq_nil.mp hc with ⟨h1, _⟩
    exact h a (by simp) h1

/-! ### The byte-offset write loop flattened -/

theorem setAtByteOffsets_eq (f : Nat → Diff) (z : Diff) :
    ∀ (s : List Nat) (pre : List Diff),
      setAtByteOffsets f (pre ++ List.replicate (strByteLen s) z) pre.length s
        = pre ++ s.flatMap (fun r => f r :: List.replicate (runeLen r - 1) z) := by
  intro s
  induction s with
  | nil => simp [setAtByteOffsets, strByteLen_nil]
  | cons r rs ih =>
    intro pre
    have hlen : strByteLen (r :: rs) = runeLen r + strByteLen rs :=
      strByteLen_cons r rs
    have hr : runeLen r = 1 + (runeLen r - 1) := by
      have := runeLen_pos r
      omega
    have hrep : List.replicate (strByteLen (r :: rs)) z
        = z :: (List.replicate (runeLen r - 1) z ++ List.replicate (strByteLen rs) z) := by
      rw [hlen, show runeLen r + strByteLen rs
        = 1 + ((runeLen r - 1) + strByteLen rs) by omega, List.replicate_add,
        List.replicate_add]
      rfl
    rw [hrep]
    show setAtByteOffsets f
        ((pre ++ z :: (List.replicate (runeLen r - 1) z ++ List.replicate (strByteLen rs) z)).set
          pre.length (f r))
        (pre.length + runeLen r) rs = _
    rw [set_append_len]
    have hpre' : pre ++ f r :: (List.replicate (runeLen r - 1) z ++ List.replicate (strByteLen rs) z)
        = (pre ++ f r :: List.replicate (runeLen r - 1) z) ++ List.replicate (strByteLen rs) z := by
      simp
    have hlen' : pre.length + runeLen r
        = (pre ++ f r :: List.replicate (runeLen r - 1) z).length := by
      simp [List.length_replicate]
      omega
    rw [hpre', hlen', ih]
    simp

theorem noDiff_eq (s : List Nat) :
    noDiff s = s.flatMap
      (fun r => Diff.mk none none r :: List.replicate (runeLen r - 1) zeroDiff) := by
  have := setAtByteOffsets_eq (fun r => Diff.mk none none r) zeroDiff s []
  simpa [noDiff] using this

theorem noDiff_ascii {s : List Nat} (h : isASCII s = true) :
    noDiff s = s.map (fun r => Diff.mk none none r) := by
  rw [noDiff_eq]
  have h' : ∀ r ∈ s, runeLen r = 1 := fun r hr => runeLen_ascii (isASCII_iff.mp h r hr)
  clear h
  revert h'
  induction s with
  | nil =>
    intro _
    rfl
  | cons r rs ih =>
    intro h'
    rw [List.flatMap_cons, h' r (by simp), List.map_cons,
      ih (fun x hx => h' x (by simp [hx]))]
    rfl

/-! ### Unfolding lemmas for `toASCII` and `processRune` -/

theorem toASCII_of_ascii (ctx : Ctx) {s : List Nat} (h : isASCII s = true) :
    toASCII ctx s = (s, noDiff s) := by
  unfold toASCII
  rw [if_pos h]

theorem toASCII_of_not_ascii (ctx : Ctx) {s : List Nat} (h : ¬isASCII s = true) :
    toASCII ctx s
      = (ctx.nfkc ((s.map (processRune ctx)).flatMap
          (fun d => d.confusable.getD [d.rune])), s.map (processRune ctx)) := by
  unfold toASCII
  rw [if_neg h]

theorem processRune_rune (ctx : Ctx) (r : Nat) : (processRune ctx r).rune = r := by
  unfold processRune processRuneFallback
  split
  · rfl
  · split
    · split
      · rfl
      · split
        · rfl
        · rfl
    · split
      · rfl
      · rfl

theorem processRune_getD (ctx : Ctx) (r : Nat) :
    (processRune ctx r).confusable.getD [r] = substSpec ctx r := by
  unfold processRune processRuneFallback substSpec
  split
  · rfl
  · split
    · split
      · rfl
      · split
        · rfl
        · rfl
    · split
      · rfl
      · rfl

/-- C2: `to_ascii` agrees with the spec's per-code-point description: each code
point of the original (non-decomposed) string is kept if ASCII, else replaced
by the mark-stripped mapping target when that is pure ASCII, else by its own
mark-stripped form when that is pure ASCII, else kept; NFKC is applied to the
concatenation.  (The source's pure-ASCII short-circuit coincides because NFKC
is the identity on pure-ASCII strings.) -/
theorem toASCII_matches_spec (ctx : Ctx)
    (hnfkc : ∀ t, isASCII t = true → ctx.nfkc t = t) (s : List Nat) :
    ToASCII ctx s = toASCIISpec ctx s := by
  unfold ToASCII toASCIISpec
  by_cases h : isASCII s = true
  · rw [toASCII_of_ascii ctx h]
    have hsub : ∀ r ∈ s, substSpec ctx r = [r] := by
      intro r hr
      have hra : r ≤ maxASCII := isASCII_iff.mp h r hr
      unfold substSpec
      rw [if_pos hra]
    rw [show ((s, noDiff s) : List Nat × List Diff).1 = s from rfl,
      flatMap_id_of hsub, hnfkc s h]
  · rw [toASCII_of_not_ascii ctx h]
    show ctx.nfkc _ = ctx.nfkc _
    congr 1
    rw [List.flatMap_map]
    refine congrArg _ (funext fun r => ?_)
    rw [processRune_rune, processRune_getD]

/-- Witness for C2 at the context of `ò` (canonical decomposition and
mark-stripping as in the real library) and the string `"tò"`. -/
theorem toASCII_matches_spec_witness :
    ToASCII graveCtx [0x74, 0xF2] = toASCIISpec graveCtx [0x74, 0xF2] :=
  toASCII_matches_spec graveCtx (fun _ _ => rfl) [0x74, 0xF2]

/-- C9: every pure-ASCII string is a fixed point of `to_ascii`; in particular
`to_ascii("") == ""`, and `to_skeleton("") == ""` (given that NFD maps the
empty string to itself). -/
theorem toASCII_ascii_fixed (ctx : Ctx) (hnfd0 : ctx.nfd [] = []) :
    (∀ s, isASCII s = true → ToASCII ctx s = s) ∧
    ToASCII ctx [] = [] ∧ ToSkeleton ctx [] = [] := by
  refine ⟨fun s h => ?_, ?_, ?_⟩
  · show (toASCII ctx s).1 = s
    rw [toASCII_of_ascii ctx h]
  · show (toASCII ctx []).1 = []
    rw [toASCII_of_ascii ctx (show isASCII ([] : List Nat) = true from rfl)]
  · unfold ToSkeleton
    rw [hnfd0]
    rfl

/-- Witness for C9 at the empty store with identity normalizers and the
string `"ab"`. -/
theorem toASCII_ascii_fixed_witness :
    ToASCII idCtx [0x61, 0x62] = [0x61, 0x62] ∧ ToSkeleton idCtx [] = [] :=
  ⟨(toASCII_ascii_fixed idCtx rfl).1 [0x61, 0x62] (by decide),
   (toASCII_ascii_fixed idCtx rfl).2.2⟩

/-- C1: `is_confusable` is exactly skeleton equality; it is reflexive; the
empty string is confusable with itself and (given that NFD preserves
non-emptiness and that every stored confusable target is non-empty, as the
parser guarantees) with no non-empty string. -/
theorem isConfusable_iff_skeleton_eq (ctx : Ctx)
    (hnfd0 : ctx.nfd [] = [])
    (hne : ∀ s : List Nat, s ≠ [] → ctx.nfd s ≠ [])
    (htgt : ∀ r v, lookupConf ctx r = some v → v ≠ []) :
    (∀ a b, (IsConfusable ctx a b = true) ↔ ToSkeleton ctx a = ToSkeleton ctx b) ∧
    (∀ s, IsConfusable ctx s s = true) ∧
    IsConfusable ctx [] [] = true ∧
    (∀ s, s ≠ [] → IsConfusable ctx [] s = false) := by
  have hiff : ∀ a b, (IsConfusable ctx a b = true) ↔ ToSkeleton ctx a = ToSkeleton ctx b := by
    intro a b
    unfold IsConfusable
    exact beq_iff_eq
  have hskel_nil : ToSkeleton ctx [] = [] := by
    unfold ToSkeleton
    rw [hnfd0]
    rfl
  refine ⟨hiff, fun s => (hiff s s).mpr rfl, (hiff [] []).mpr rfl, fun s hs => ?_⟩
  have h1 : ToSkeleton ctx s ≠ [] := by
    unfold ToSkeleton
    apply flatMap_ne_nil (hne s hs)
    intro r hr
    unfold skelSub
    cases hc : lookupConf ctx r with
    | none => simp
    | some v =>
      rw [Option.getD_some]
      exact htgt r v hc
  unfold IsConfusable
  rw [hskel_nil, beq_eq_false_iff_ne]
  exact fun hh => h1 hh.symm

/-- Witness for C1 at the empty store: reflexivity on `"a"` and
non-confusability of `""` with `"x"`. -/
theorem isConfusable_iff_skeleton_eq_witness :
    IsConfusable idCtx [0x61] [0x61] = true ∧ IsConfusable idCtx [] [0x78] = false :=
  ⟨(isConfusable_iff_skeleton_eq idCtx rfl (fun _ hs => hs)
      (fun _ _ h => Option.noConfusion h)).2.1 [0x61],
   (isConfusable_iff_skeleton_eq idCtx rfl (fun _ hs => hs)
      (fun _ _ h => Option.noConfusion h)).2.2.2 [0x78] (by decide)⟩

/-- C6: `to_skeleton` is idempotent, given that NFD is stable on skeleton
outputs and that no rune occurring in a stored confusable target is itself
mapped (both hold for the shipped UTS #39 data, whose mapping is idempotent
by construction). -/
theorem toSkeleton_idempotent (ctx : Ctx)
    (hnfd : ∀ t, ctx.nfd (ToSkeleton ctx t) = ToSkeleton ctx t)
    (htab : ∀ r v, lookupConf ctx r = some v → ∀ c ∈ v, lookupConf ctx c = none)
    (s : List Nat) :
    ToSkeleton ctx (ToSkeleton ctx s) = ToSkeleton ctx s := by
  have hsub : ∀ r, (skelSub ctx r).flatMap (skelSub ctx) = skelSub ctx r := by
    intro r
    cases hc : lookupConf ctx r with
    | none =>
      have hr : skelSub ctx r = [r] := by
        unfold skelSub
        rw [hc]
        rfl
      rw [hr]
      simp only [List.flatMap_cons, List.flatMap_nil, List.append_nil]
      exact hr
    | some v =>
      have hr : skelSub ctx r = v := by
        unfold skelSub
        rw [hc]
        rfl
      rw [hr]
      apply flatMap_id_of
      intro c hcv
      unfold skelSub
      rw [htab r v hc c hcv]
      rfl
  rw [show ToSkeleton ctx (ToSkeleton ctx s)
      = (ctx.nfd (ToSkeleton ctx s)).flatMap (skelSub ctx) from rfl, hnfd s]
  conv_lhs => rw [show ToSkeleton ctx s = (ctx.nfd s).flatMap (skelSub ctx) from rfl]
  rw [List.flatMap_assoc]
  exact congrArg (fun g => (ctx.nfd s).flatMap g) (funext hsub)

/-- Witness for C6 at the store fragment `'m' ↦ "rn"` and the string `"tum"`. -/
theorem toSkeleton_idempotent_witness :
    ToSkeleton mCtx (ToSkeleton mCtx [0x74, 0x75, 0x6D]) = ToSkeleton mCtx [0x74, 0x75, 0x6D] :=
  toSkeleton_idempotent mCtx (fun _ => rfl)
    (by
      intro r v h c hc
      by_cases hr : r = 0x6D
      · subst hr
        have hv : v = [0x72, 0x6E] := by
          have hm : lookupConf mCtx 0x6D = some [0x72, 0x6E] := rfl
          rw [hm] at h
          exact (Option.some_inj.mp h).symm
        subst hv
        fin_cases hc <;> rfl
      · exfalso
        have hfalse : ((0x6D : Nat) == r) = false := beq_eq_false_iff_ne.mpr (Ne.symm hr)
        have hmc : mCtx.confusables = [(0x6D, [0x72, 0x6E])] := rfl
        unfold lookupConf at h
        rw [hmc] at h
        simp only [List.find?, hfalse] at h
        exact Option.noConfusion h)
    [0x74, 0x75, 0x6D]

/-- C3 (amended): `to_skeleton_diff` returns the absent (nil) slice exactly
when the NFD form is empty; otherwise it returns one `Diff` per *byte* of the
NFD form — the entry at each byte offset where a code point begins carries
that code point (confusable set iff the store has an entry for it, as the
accompanying equations state), and the remaining byte positions keep the
zero-value `Diff`. -/
theorem toSkeletonDiff_bytes (ctx : Ctx) (s : List Nat) :
    (ToSkeletonDiff ctx s
      = if ctx.nfd s = [] then none
        else some ((ctx.nfd s).flatMap
          (fun r => skelDiffOf ctx r :: List.replicate (runeLen r - 1) zeroDiff))) ∧
    (∀ r, (skelDiffOf ctx r).confusable = lookupConf ctx r) ∧
    (∀ r, (skelDiffOf ctx r).rune = r) := by
  refine ⟨?_, fun r => rfl, fun r => rfl⟩
  unfold ToSkeletonDiff
  by_cases h : ctx.nfd s = []
  · rw [if_pos h, h]
    rfl
  · rw [if_neg h, if_neg (fun h0 => h (strByteLen_eq_zero_iff.mp h0))]
    have := setAtByteOffsets_eq (skelDiffOf ctx) zeroDiff (ctx.nfd s) []
    simp only [List.nil_append, List.length_nil] at this
    rw [this]

/-- Counterexample for C3: with the empty store and identity normalizers
(faithful to real NFD on `""` and on `"α"`, which has no decomposition),
`to_skeleton_diff("")` is the absent nil slice, not an empty sequence, and
`to_skeleton_diff("α")` has two entries — the byte length of the NFD form —
although the NFD form has a single code point. -/
theorem toSkeletonDiff_counterexample :
    ToSkeletonDiff idCtx [] = none ∧
    (ToSkeletonDiff idCtx [0x3B1]).map List.length = some 2 ∧
    (idCtx.nfd [0x3B1]).length = 1 := by decide

/-- C5 (amended): `to_ascii_diff` produces one `Diff` per code point of the
*original* string (the pure-ASCII short-circuit produces one per byte, which
coincides on ASCII), and the folded string is NFKC applied to the
concatenation of each `Diff`'s confusable-or-original-rune (which on the
short-circuit path is the identity, NFKC being the identity on pure ASCII). -/
theorem toASCIIDiff_structure (ctx : Ctx)
    (hnfkc : ∀ t, isASCII t = true → ctx.nfkc t = t) (s : List Nat) :
    (ToASCIIDiff ctx s).2.length = s.length ∧
    (ToASCIIDiff ctx s).1
      = ctx.nfkc ((ToASCIIDiff ctx s).2.flatMap (fun d => d.confusable.getD [d.rune])) := by
  unfold ToASCIIDiff
  by_cases h : isASCII s = true
  · rw [toASCII_of_ascii ctx h]
    constructor
    · show (noDiff s).length = s.length
      rw [noDiff_ascii h, List.length_map]
    · show s = ctx.nfkc ((noDiff s).flatMap fun d => d.confusable.getD [d.rune])
      rw [noDiff_ascii h, List.flatMap_map]
      have hid : s.flatMap (fun r => (Diff.mk none none r).confusable.getD
          [(Diff.mk none none r).rune]) = s :=
        flatMap_id_of (fun r _ => rfl)
      rw [hid, hnfkc s h]
  · rw [toASCII_of_not_ascii ctx h]
    exact ⟨List.length_map _ _, rfl⟩

/-- Witness for C5 (amended) at the store fragment `'m' ↦ "rn"` and the
one-code-point string `"ʍ"`. -/
theorem toASCIIDiff_structure_witness :
    (ToASCIIDiff mCtx [0x28D]).2.length = [0x28D].length ∧
    (ToASCIIDiff mCtx [0x28D]).1
      = mCtx.nfkc ((ToASCIIDiff mCtx [0x28D]).2.flatMap
          (fun d => d.confusable.getD [d.rune])) :=
  toASCIIDiff_structure mCtx (fun _ _ => rfl) [0x28D]

/-- Counterexample for C5: with the `ò`-context (real NFD decomposes `ò` into
two code points), `to_ascii_diff("ò")` has one `Diff`, not one per decomposed
code point; and with the `¼`-context (real NFKC rewrites `¼` to `1⁄4`, no
store entry, no marks to strip), the concatenation of
confusable-or-original-rune is `"¼"` while `to_ascii("¼")` is `"1⁄4"` — the
concatenation does not reproduce `to_ascii` exactly. -/
theorem toASCIIDiff_counterexample :
    ((ToASCIIDiff graveCtx [0xF2]).2.length = 1 ∧ (graveCtx.nfd [0xF2]).length = 2) ∧
    ((ToASCIIDiff quarterCtx [0xBC]).2.flatMap (fun d => d.confusable.getD [d.rune])
        = [0xBC] ∧
      (ToASCIIDiff quarterCtx [0xBC]).1 = [0x31, 0x2044, 0x34]) := by decide

/-- C7: `to_number` first ASCII-folds and then, per resulting code point,
performs the case-insensitive digit fold (`o ↦ 0`; `i`, `l`, `!` ↦ `1`),
given that `strings.ToLower` lowercases ASCII runes in the ASCII way and that
no non-ASCII code point surviving the fold lowercases to one of the trigger
strings; the three literal examples follow. -/
theorem toNumber_spec (ctx : Ctx)
    (hlow : ∀ r, r ≤ maxASCII → ctx.toLowerRune r = [asciiLowerRune r]) :
    (∀ s, (∀ r ∈ ToASCII ctx s, maxASCII < r →
        ctx.toLowerRune r ≠ [0x6F] ∧ ctx.toLowerRune r ≠ [0x69] ∧
        ctx.toLowerRune r ≠ [0x6C] ∧ ctx.toLowerRune r ≠ [0x21]) →
      ToNumber ctx s = (ToASCII ctx s).map numberFoldSpecRune) ∧
    ToNumber ctx [0x66, 0x6F, 0x6F, 0x62, 0x61, 0x72]
      = [0x66, 0x30, 0x30, 0x62, 0x61, 0x72] ∧
    ToNumber ctx [0x4F, 0x31, 0x32] = [0x30, 0x31, 0x32] ∧
    ToNumber ctx [0x21, 0x32, 0x33] = [0x31, 0x32, 0x33] := by
  have hgen : ∀ s, (∀ r ∈ ToASCII ctx s, maxASCII < r →
      ctx.toLowerRune r ≠ [0x6F] ∧ ctx.toLowerRune r ≠ [0x69] ∧
      ctx.toLowerRune r ≠ [0x6C] ∧ ctx.toLowerRune r ≠ [0x21]) →
      ToNumber ctx s = (ToASCII ctx s).map numberFoldSpecRune := by
    intro s hkept
    unfold ToNumber
    apply List.map_congr_left
    intro r hr
    by_cases hra : r ≤ maxASCII
    · unfold numberFoldRune numberFoldSpecRune
      rw [hlow r hra]
      simp only [List.cons.injEq, and_true]
    · obtain ⟨ho, hi, hl, hb⟩ := hkept r hr (by omega)
      unfold numberFoldRune numberFoldSpecRune
      rw [if_neg ho, if_neg (by push_neg; exact ⟨hi, hl, hb⟩)]
      have hfix : asciiLowerRune r = r := by
        unfold asciiLowerRune maxASCII at *
        rw [if_neg (by omega)]
      rw [hfix]
      rw [if_neg (by unfold maxASCII at hra; omega),
        if_neg (by push_neg; unfold maxASCII at hra; omega)]
  have hascii : ∀ t : List Nat, isASCII t = true → ToASCII ctx t = t := by
    intro t h
    show (toASCII ctx t).1 = t
    rw [toASCII_of_ascii ctx h]
  have hex : ∀ t : List Nat, isASCII t = true →
      ToNumber ctx t = t.map numberFoldSpecRune := by
    intro t h
    have hk : ∀ r ∈ ToASCII ctx t, maxASCII < r →
        ctx.toLowerRune r ≠ [0x6F] ∧ ctx.toLowerRune r ≠ [0x69] ∧
        ctx.toLowerRune r ≠ [0x6C] ∧ ctx.toLowerRune r ≠ [0x21] := by
      intro r hr hgt
      rw [hascii t h] at hr
      have : r ≤ maxASCII := isASCII_iff.mp h r hr
      omega
    rw [hgen t hk, hascii t h]
  refine ⟨hgen, ?_, ?_, ?_⟩
  · rw [hex _ (by decide)]
    decide
  · rw [hex _ (by decide)]
    decide
  · rw [hex _ (by decide)]
    decide

/-- Witness for C7 at the empty-store context with ASCII lowercasing:
`to_number("O12") == "012"` and `to_number("!23") == "123"`. -/
theorem toNumber_spec_witness :
    ToNumber idCtx [0x4F, 0x31, 0x32] = [0x30, 0x31, 0x32] ∧
    ToNumber idCtx [0x21, 0x32, 0x33] = [0x31, 0x32, 0x33] :=
  ⟨(toNumber_spec idCtx (fun _ _ => rfl)).2.2.1,
   (toNumber_spec idCtx (fun _ _ => rfl)).2.2.2⟩

/-! ### Parser lemmas -/

theorem splitGo_ne_nil_aux (sep : List Nat) :
    ∀ (fuel : Nat) (s acc : List Nat), splitGo sep fuel s acc ≠ [] := by
  intro fuel
  induction fuel with
  | zero =>
    intro s acc
    cases s with
    | nil => simp [splitGo]
    | cons r rs => simp [splitGo]
  | succ n ih =>
    intro s acc
    cases s with
    | nil => simp [splitGo]
    | cons r rs =>
      unfold splitGo
      split
      · simp
      · exact ih rs (r :: acc)

theorem splitOnSub_ne_nil (sep s : List Nat) : splitOnSub sep s ≠ [] :=
  splitGo_ne_nil_aux sep s.length s []

theorem stepRes_ne_ignoreLine {α : Type} {o : Option α} {onFail : ParseResult}
    {k : α → ParseResult} (h1 : onFail ≠ .ignoreLine)
    (h2 : ∀ x, k x ≠ .ignoreLine) : stepRes o onFail k ≠ .ignoreLine := by
  cases o with
  | none => exact h1
  | some x => exact h2 x

theorem parseFields_ne_ignoreLine (fields : List (List Nat)) :
    parseFields fields ≠ ParseResult.ignoreLine := by
  unfold parseFields
  refine stepRes_ne_ignoreLine (by simp) fun f0 => ?_
  refine stepRes_ne_ignoreLine (by simp) fun sourceRunes => ?_
  refine stepRes_ne_ignoreLine (by simp) fun f1 => ?_
  refine stepRes_ne_ignoreLine (by simp) fun target => ?_
  refine stepRes_ne_ignoreLine (by simp) fun f2 => ?_
  refine stepRes_ne_ignoreLine (by simp) fun a1 => ?_
  refine stepRes_ne_ignoreLine (by simp) fun fromRaw => ?_
  refine stepRes_ne_ignoreLine (by simp) fun a2 => ?_
  refine stepRes_ne_ignoreLine (by simp) fun toRaw => ?_
  refine stepRes_ne_ignoreLine (by simp) fun src => ?_
  simp

/-- C4 (amended): `parse_line` signals IgnoreLine exactly on (BOM-stripped)
blank or `#`-prefixed lines; a well-formed data line yields a parsed entry;
a hex-parse failure in the first field yields a returned parse error; but a
non-ignored line whose first field hex-parses and which has no `" ;\t"`
delimiter (a single field) makes the source index `fields[1]` out of range —
a runtime panic, not a returned error. -/
theorem parseLine_outcomes (line : List Nat) :
    (ParseLine line = .ignoreLine ↔
      ((trimBOM line).head? = some 0x23 ∨ trimBOM line = [])) ∧
    (¬((trimBOM line).head? = some 0x23 ∨ trimBOM line = []) →
      (codepointsToRunes ((splitOnSub fieldSep (trimBOM line)).getD 0 []) = none →
        ParseLine line = .parseError) ∧
      (codepointsToRunes ((splitOnSub fieldSep (trimBOM line)).getD 0 []) ≠ none →
        (splitOnSub fieldSep (trimBOM line)).length = 1 →
        ParseLine line = .crash)) ∧
    ParseLine
      [0x34, 0x31, 0x20, 0x3B, 0x09, 0x34, 0x32, 0x20, 0x3B, 0x09, 0x23, 0x20,
       0x28, 0x20, 0x61, 0x20, 0x2192, 0x20, 0x62, 0x20, 0x29, 0x20, 0x46, 0x41,
       0x20, 0x2192, 0x20, 0x54, 0x42, 0x20, 0x23, 0x78]
      = .entry ⟨⟨[0x46, 0x41], [0x54, 0x42]⟩, 0x41, [0x42]⟩ := by
  refine ⟨?_, ?_, by decide⟩
  · unfold ParseLine
    by_cases h : (trimBOM line).head? = some 0x23 ∨ trimBOM line = []
    · rw [if_pos h]
      simp [h]
    · rw [if_neg h]
      simp only [h, iff_false]
      exact parseFields_ne_ignoreLine _
  · intro hni
    obtain ⟨f0, rest, hf⟩ : ∃ f0 rest, splitOnSub fieldSep (trimBOM line) = f0 :: rest := by
      cases hsp : splitOnSub fieldSep (trimBOM line) with
      | nil => exact absurd hsp (splitOnSub_ne_nil _ _)
      | cons a b => exact ⟨a, b, rfl⟩
    have hPL : ParseLine line = parseFields (splitOnSub fieldSep (trimBOM line)) := by
      unfold ParseLine
      rw [if_neg hni]
    constructor
    · intro hhex
      rw [hf] at hhex
      rw [show (f0 :: rest).getD 0 [] = f0 from rfl] at hhex
      rw [hPL, hf]
      show stepRes (codepointsToRunes f0) .parseError _ = .parseError
      rw [hhex]
      rfl
    · intro hhex hlen
      rw [hf] at hhex hlen
      rw [show (f0 :: rest).getD 0 [] = f0 from rfl] at hhex
      obtain ⟨v, hv⟩ := Option.ne_none_iff_exists.mp hhex
      have hrest : rest = [] := by
        simp only [List.length_cons] at hlen
        exact List.length_eq_zero.mp (by omega)
      subst hrest
      rw [hPL, hf]
      show stepRes (codepointsToRunes f0) .parseError _ = .crash
      rw [← hv]
      rfl

/-- Witness for C4 (amended): a hex-parse failure (`"zz"`) returns a parse
error and a comment line is ignored. -/
theorem parseLine_outcomes_witness :
    ParseLine [0x7A, 0x7A] = .parseError ∧ ParseLine [0x23, 0x63] = .ignoreLine :=
  ⟨((parseLine_outcomes [0x7A, 0x7A]).2.1 (by decide)).1 (by decide),
   (parseLine_outcomes [0x23, 0x63]).1.mpr (by decide)⟩

/-- Counterexample for C4: the line `"0041"` — not blank, not a comment, valid
hex — has no `" ;\t"` delimiter, so the source panics on `fields[1]` (index
out of range) instead of returning a parse error. -/
theorem parseLine_counterexample :
    ParseLine [0x30, 0x30, 0x34, 0x31] = .crash ∧
    ParseLine [0x30, 0x30, 0x34, 0x31] ≠ .parseError := by decide

/-- C10: `parse_line` strips one leading BOM before classifying: a
BOM-prefixed line parses as the line without it, a line of just a BOM is
ignored as blank, and a BOM-prefixed comment line is ignored. -/
theorem parseLine_bom :
    (∀ rest : List Nat, rest.head? ≠ some bomRune →
      ParseLine (bomRune :: rest) = ParseLine rest) ∧
    ParseLine [bomRune] = .ignoreLine ∧
    (∀ rest : List Nat, ParseLine (bomRune :: 0x23 :: rest) = .ignoreLine) := by
  refine ⟨?_, by decide, fun rest => ?_⟩
  · intro rest h
    have h1 : trimBOM (bomRune :: rest) = rest := rfl
    have h2 : trimBOM rest = rest := by
      cases rest with
      | nil => rfl
      | cons a t =>
        have ha : ¬a = bomRune := fun hc =>
          h (by rw [show (a :: t).head? = some a from rfl, hc])
        show (if a = bomRune then t else a :: t) = a :: t
        rw [if_neg ha]
    unfold ParseLine
    rw [h1, h2]
  · unfold ParseLine
    rw [show trimBOM (bomRune :: 0x23 :: rest) = 0x23 :: rest from rfl]
    exact if_pos (Or.inl rfl)

/-- Witness for C10: a BOM-prefixed `"A"` parses exactly as `"A"` does. -/
theorem parseLine_bom_witness :
    ParseLine [bomRune, 0x41] = ParseLine [0x41] :=
  parseLine_bom.1 [0x41] (by decide)

/-- C8: evaluation at the failing input.  Starting from an empty store,
`AddMappingWithDesc('ʍ', "m", "W", "M")` stores the single description entry
`"W" ↦ "M"` — keyed by the from-description text, not by `string('ʍ')` and
`"m"` — so the subsequent `to_skeleton_diff("ʍ")` resolves no description
(`none`), contrary to the claimed pair `("W", "M")`. -/
theorem addMappingWithDesc_wrong_key :
    (AddMappingWithDesc idCtx 0x28D [0x6D] [0x57] [0x4D]).descriptions
      = [([0x57], [0x4D])] ∧
    ToSkeletonDiff (AddMappingWithDesc idCtx 0x28D [0x6D] [0x57] [0x4D]) [0x28D]
      = some [⟨some [0x6D], none, 0x28D⟩, ⟨none, none, 0⟩] := by decide

end Confusables
